import Mathlib

namespace LexiMatic

/-- The DFA operations used by the scanner, mirroring the subset of
the regex-automata dense DFA API that `dfa_search_next` calls.
States are natural numbers. -/

structure DFA where
  start : Nat
  next_state : Nat → Nat → Nat
  next_eoi_state : Nat → Nat
  is_match_state : Nat → Bool
  is_dead_state : Nat → Bool
  match_pattern : Nat → Nat

/-- Run the DFA from a given state over a list of bytes. -/

def runFrom (d : DFA) : Nat → List Nat → Nat
  | s, [] => s
  | s, b :: rest => runFrom d (d.next_state s b) rest

/-- Run the DFA from its anchored start state. -/

def run (d : DFA) (w : List Nat) : Nat := runFrom d d.start w

/-- The scan loop of `dfa_search_next` (src/lib.rs lines 32-45).
`i` is the index of the next byte to be consumed; `matched` is the pair
`(state, position)` recorded so far.  On a match state the pair
`(state, i)` is recorded (the byte index, matching the Rust
`matched = (state, i)`); on a dead state the loop breaks, skipping the
end-of-input transition; when bytes run out the end-of-input transition
is taken and, if it is a match state, the full length is recorded. -/

def dfaSearchLoop (d : DFA) : List Nat → Nat → Nat → (Nat × Nat) → (Nat × Nat)
  | [], s, i, matched =>
      let s2 := d.next_eoi_state s
      if d.is_match_state s2 then (s2, i) else matched
  | b :: rest, s, i, matched =>
      let s2 := d.next_state s b
      if d.is_match_state s2 then
        dfaSearchLoop d rest s2 (i + 1) (s2, i)
      else if d.is_dead_state s2 then matched
      else dfaSearchLoop d rest s2 (i + 1) matched

/-- `dfa_search_next` from src/lib.rs: returns `(pattern_id, length)` of
the recorded match, or `none` when the recorded length is zero. -/

def dfa_search_next (d : DFA) (input : List Nat) : Option (Nat × Nat) :=
  let m := dfaSearchLoop d input d.start 0 (d.start, 0)
  if m.2 ≠ 0 then some (d.match_pattern m.1, m.2) else none

/-- The Scan Step algorithm as the claim states it: iterate bytes left
to right and, after the transition on the byte at index `i`, record
`(state, i + 1)` if the new state is accepting; stop on a dead state;
when the bytes are exhausted without dying, take the end-of-input
transition and record the full length on acceptance.  This definition
follows the claim wording, for comparison with `dfa_search_next`. -/

def dfaSearchLoopClaimed (d : DFA) : List Nat → Nat → Nat → (Nat × Nat) → (Nat × Nat)
  | [], s, i, matched =>
      let s2 := d.next_eoi_state s
      if d.is_match_state s2 then (s2, i) else matched
  | b :: rest, s, i, matched =>
      let s2 := d.next_state s b
      if d.is_match_state s2 then
        dfaSearchLoopClaimed d rest s2 (i + 1) (s2, i + 1)
      else if d.is_dead_state s2 then matched
      else dfaSearchLoopClaimed d rest s2 (i + 1) matched

/-- The claimed Scan Step: run the claimed loop and return the recorded
match, or no-match when nothing was recorded. -/

def dfa_search_next_claimed (d : DFA) (input : List Nat) : Option (Nat × Nat) :=
  let m := dfaSearchLoopClaimed d input d.start 0 (d.start, 0)
  if m.2 ≠ 0 then some (d.match_pattern m.1, m.2) else none

/-- The Scan Step algorithm as amended: identical to the claim except
that the accepting state entered on the transition over the byte at
index `i` records position `i` (the dense DFA signals matches delayed
by one byte; the recorded position is the number of bytes consumed
before the byte that triggered the transition). -/

def dfaSearchIdxAmended (d : DFA) (input : List Nat) (s i : Nat) (m : Nat × Nat) :
    Nat × Nat :=
  match h : input[i]? with
  | none =>
    let s2 := d.next_eoi_state s
    if d.is_match_state s2 then (s2, input.length) else m
  | some b =>
    let s2 := d.next_state s b
    if d.is_match_state s2 then dfaSearchIdxAmended d input s2 (i + 1) (s2, i)
    else if d.is_dead_state s2 then m
    else dfaSearchIdxAmended d input s2 (i + 1) m
termination_by input.length - i
decreasing_by
  all_goals
    have hi : i < input.length := (List.getElem?_eq_some.mp h).1
    omega

/-- The amended Scan Step. -/

def dfa_search_next_amended (d : DFA) (input : List Nat) : Option (Nat × Nat) :=
  let m := dfaSearchIdxAmended d input d.start 0 (d.start, 0)
  if m.2 ≠ 0 then some (d.match_pattern m.1, m.2) else none

/-! ### Pattern-list semantics and the DFA contract

The derive macro joins the token regexes (in declaration order) and then
the skip regexes into one list and compiles them with `MatchKind::All`
and an anchored start (`derive_lexer_impl` lines 111-122).  A pattern is
modelled semantically as a decidable byte-list predicate.  `Models`
states the contract of the compiled dense DFA: matches are signalled one
byte late, `match_pattern _ 0` is the lowest-indexed accepting pattern,
and dead states are absorbing and non-matching. -/

/-- The lowest index of a pattern in the list matching the word, the
declaration-order tie-break. -/

def firstMatchIdx : List (List Nat → Bool) → List Nat → Option Nat
  | [], _ => none
  | f :: rest, w =>
    if f w then some 0 else (firstMatchIdx rest w).map (fun n => n + 1)

/-- The pattern list the derive macro compiles: token patterns in
declaration order followed by the skip patterns
(`regexes.extend(skip_regexes)`). -/

def compiledPatterns (toks skips : List (List Nat → Bool)) : List (List Nat → Bool) :=
  toks ++ skips

/-- The contract of the compiled anchored all-matches dense DFA over a
pattern list: a state entered on the transition over a byte is a match
state exactly when some pattern matches the word read so far *before*
that byte (matches are delayed by one byte); the end-of-input transition
signals matches of the whole word; `match_pattern` at index 0 is the
lowest accepting pattern index; dead states are absorbing, closed under
the end-of-input transition, and never match. -/

structure Models (d : DFA) (pats : List (List Nat → Bool)) : Prop where
  match_delayed : ∀ u b, d.is_match_state (run d (u ++ [b])) = (firstMatchIdx pats u).isSome
  pattern_delayed :
    ∀ u b p, firstMatchIdx pats u = some p → d.match_pattern (run d (u ++ [b])) = p
  match_eoi : ∀ w, d.is_match_state (d.next_eoi_state (run d w)) = (firstMatchIdx pats w).isSome
  pattern_eoi :
    ∀ w p, firstMatchIdx pats w = some p → d.match_pattern (d.next_eoi_state (run d w)) = p
  dead_next : ∀ s b, d.is_dead_state s = true → d.is_dead_state (d.next_state s b) = true
  dead_eoi : ∀ s, d.is_dead_state s = true → d.is_dead_state (d.next_eoi_state s) = true
  dead_no_match : ∀ s, d.is_dead_state s = true → d.is_match_state s = false

/-! ### The generated token iterator

`derive_lexer_impl` generates, per token enum, an `Iterator::next` body
(lines 164-192): it loops; when the remaining slice is empty it yields
end-of-sequence; on a Scan Step no-match it yields `Error(start)`; a
match whose pattern id is one of the variants is turned into a token
(after running the variant's continuation hook, whose failure yields
`Error(start)`), advancing `consumed`; any higher pattern id is a skip:
`consumed` advances and the loop continues.  The embedding `nextLoop`
returns the yielded item, the new cursor, and the spans skipped during
the call. -/

/-- A token variant: an optional continuation hook
(`matched → tail → Option extra`, `None` = failure) and whether the
constructor carries the matched text slice. -/

structure Variant where
  hook : Option (List Nat → List Nat → Option Nat)
  carries : Bool

/-- A compiled lexer: the DFA plus the token variants in declaration
order.  Pattern ids `≥ variants.length` are skip patterns. -/

structure Lexer where
  dfa : DFA
  variants : List Variant

/-- A constructed token: the variant index and, when the variant
carries text, the matched slice. -/

structure Token where
  idx : Nat
  text : Option (List Nat)
deriving DecidableEq

/-- One yielded item: a token triple `(start, token, stop)` or a
lexical error carrying a byte offset. -/

inductive StepRes where
  | tok : Nat → Token → Nat → StepRes
  | err : Nat → StepRes
deriving DecidableEq

/-- Variant construction: nullary variants ignore the slice, slice
variants receive it (`#name::#vn((&remaining[..len]).into())`). -/

def mkToken (v : Variant) (pat : Nat) (s : List Nat) : Token :=
  ⟨pat, if v.carries then some s else none⟩

/-- The body of the generated `Iterator::next`, starting an iteration of
its loop at cursor `c`.  Returns the yielded item (`none` =
end-of-sequence), the new value of `consumed`, and the spans consumed by
skip patterns during the call, in order. -/

def nextLoop (L : Lexer) (input : List Nat) (c : Nat) :
    Option StepRes × Nat × List (Nat × Nat) :=
  match hre : input.drop c with
  | [] => (none, c, [])
  | _ :: _ =>
    match hs : dfa_search_next L.dfa (input.drop c) with
    | none => (some (StepRes.err c), c, [])
    | some (pat, len) =>
      match L.variants.get? pat with
      | some v =>
        match v.hook with
        | some f =>
          match f ((input.drop c).take len) ((input.drop c).drop len) with
          | none => (some (StepRes.err c), c, [])
          | some extra =>
            (some (StepRes.tok c (mkToken v pat ((input.drop c).take (len + extra)))
              (c + (len + extra))), c + (len + extra), [])
        | none =>
          (some (StepRes.tok c (mkToken v pat ((input.drop c).take len)) (c + len)),
            c + len, [])
      | none =>
        let r := nextLoop L input (c + len)
        (r.1, r.2.1, (c, c + len) :: r.2.2)
termination_by input.length - c
decreasing_by
  have hlen : 0 < len := by
    have h2 := hs
    unfold dfa_search_next at h2
    dsimp only at h2
    split at h2
    · rename_i hne
      simp only [Option.some.injEq, Prod.mk.injEq] at h2
      omega
    · exact absurd h2 (by simp)
  have hc : c < input.length := by
    by_contra hle
    rw [List.drop_eq_nil_of_le (by omega)] at hre
    cases hre
  omega

/-- The state of a generated token iterator: the borrowed input and the
`consumed` cursor. -/

structure TokenIterator where
  input : List Nat
  consumed : Nat
deriving DecidableEq

/-- `Lexer::lex`: a fresh iterator with `consumed = 0`. -/

def lex (input : List Nat) : TokenIterator := ⟨input, 0⟩

/-- One call to `Iterator::next` on an iterator: the yielded item, the
updated iterator, and the skipped spans. -/

def next (L : Lexer) (it : TokenIterator) :
    Option StepRes × TokenIterator × List (Nat × Nat) :=
  ((nextLoop L it.input it.consumed).1,
    ⟨it.input, (nextLoop L it.input it.consumed).2.1⟩,
    (nextLoop L it.input it.consumed).2.2)

/-- Resetting an iterator's cursor to 0 (the documented restart). -/

def reset (it : TokenIterator) : TokenIterator := ⟨it.input, 0⟩

/-- The cursor after `k` calls to `next` starting from cursor `c`. -/

def consumedAfter (L : Lexer) (input : List Nat) (c : Nat) : Nat → Nat
  | 0 => c
  | k + 1 => (nextLoop L input (consumedAfter L input c k)).2.1

/-- The item yielded by call number `k` (0-based) starting from cursor `c`. -/

def resultAt (L : Lexer) (input : List Nat) (c k : Nat) : Option StepRes :=
  (nextLoop L input (consumedAfter L input c k)).1

/-- The spans skipped inside call number `k`. -/

def skipsAt (L : Lexer) (input : List Nat) (c k : Nat) : List (Nat × Nat) :=
  (nextLoop L input (consumedAfter L input c k)).2.2

/-- The (item, skipped-spans) pairs of the first `k` calls, in order. -/

def stepResults (L : Lexer) (input : List Nat) (c : Nat) :
    Nat → List (Option StepRes × List (Nat × Nat))
  | 0 => []
  | k + 1 => stepResults L input c k ++ [(resultAt L input c k, skipsAt L input c k)]

/-- The span covered by a yielded token, if any. -/

def resSpan : Option StepRes → List (Nat × Nat)
  | some (StepRes.tok s _ e) => [(s, e)]
  | _ => []

/-- All spans covered by one call: the skipped spans then the emitted
token's span. -/

def stepSpans (r : Option StepRes × List (Nat × Nat)) : List (Nat × Nat) :=
  r.2 ++ resSpan r.1

/-- All covered spans of a sequence of calls, in order. -/

def allSpans (rs : List (Option StepRes × List (Nat × Nat))) : List (Nat × Nat) :=
  (rs.map stepSpans).flatten

/-- The emitted tokens of a sequence of calls, in order. -/

def emitted (rs : List (Option StepRes × List (Nat × Nat))) :
    List (Nat × Token × Nat) :=
  rs.filterMap (fun r => match r.1 with
    | some (StepRes.tok s t e) => some (s, t, e)
    | _ => none)

/-- `SpanChain a sp b`: the spans `sp` tile the interval from `a` to `b`
contiguously, each span non-empty. -/

def SpanChain : Nat → List (Nat × Nat) → Nat → Prop
  | a, [], b => a = b
  | a, (s, e) :: rest, b => a = s ∧ s < e ∧ SpanChain e rest b

/-- `input[s..e]` as a list slice. -/

def slice (input : List Nat) (s e : Nat) : List Nat := (input.take e).drop s

/-- Well-behaved hooks: a returned extra length never exceeds the tail.
(The Rust code indexes `remaining[..len]` with the extended length, so a
hook violating this panics rather than emitting a token.) -/

def HooksBounded (L : Lexer) : Prop :=
  ∀ v ∈ L.variants, ∀ f, v.hook = some f →
    ∀ m t e, f m t = some e → e ≤ t.length

/-! ### A concrete example lexer

The declaration `{ A = token "a" }` with `skip = " "`: two patterns,
the token pattern `"a"` (id 0) and the skip pattern `" "` (id 1),
compiled to a hand-built dense-style DFA with delayed matches.
State 0 is the anchored start; state 1 has read `a`; state 2 has read
a space; state 3 signals "the word before the last byte was `a`"
(pattern 0); state 4 likewise for the space (pattern 1); state 5 is
dead; state 6 is a non-matching end-of-input state. -/

def exDfa : DFA where
  start := 0
  next_state := fun s b =>
    if s = 0 then (if b = 97 then 1 else if b = 32 then 2 else 5)
    else if s = 1 then 3
    else if s = 2 then 4
    else 5
  next_eoi_state := fun s =>
    if s = 1 then 3 else if s = 2 then 4 else if s = 5 then 5 else 6
  is_match_state := fun s => s == 3 || s == 4
  is_dead_state := fun s => s == 5
  match_pattern := fun s => if s = 4 then 1 else 0

/-- The language of the literal pattern `"a"`. -/

def patA : List Nat → Bool := fun w => w == [97]

/-- The language of the skip pattern `" "`. -/

def patSpace : List Nat → Bool := fun w => w == [32]

/-- The example's compiled pattern list: token `"a"`, then skip `" "`. -/

def exPats : List (List Nat → Bool) := compiledPatterns [patA] [patSpace]

/-- The example lexer: one slice-carrying variant without a hook;
pattern id 1 (the space) is a skip. -/

def exLexer : Lexer := ⟨exDfa, [⟨none, true⟩]⟩

/-- A continuation hook consuming the whole tail. -/

def exHook : List Nat → List Nat → Option Nat := fun _ t => some t.length

/-- The example lexer with a continuation hook on its variant. -/

def exLexerHook : Lexer := ⟨exDfa, [⟨some exHook, true⟩]⟩

/-! ### Scan Step and DFA-run lemmas -/

/-!
Verification of the lexi-matic lexer-generator core.

The scanner engine (`dfa_search_next` in `src/lib.rs`) and the generated
token iterator (`derive_lexer_impl` in `lexi-matic-derive/src/lib.rs`) are
embedded shallowly:

* a DFA is a structure exposing exactly the operations the scanner uses
  (`start`, `next_state`, `next_eoi_state`, `is_match_state`,
  `is_dead_state`, `match_pattern`), as provided by the dense DFA of
  the regex-automata dependency;
* input strings are lists of bytes (`List Nat`);
* the generated `Iterator::next` body becomes `nextLoop`, a function from
  the cursor `consumed` to the yielded item, the new cursor, and the list
  of spans skipped inside the call;
* continuation hooks are functions `matched → tail → Option extra`.

Note on match indexing: the dense DFA of regex-automata signals matches
*delayed by one byte*: the state entered after consuming the byte at
index `i` is a match state exactly when some pattern matches the prefix
of length `i`, and the special end-of-input transition signals matches of
the whole haystack.  The predicate `Models` below states this contract
for an abstract pattern list, and the longest-match theorems are proved
relative to it.
-/

/-- The recorded position never decreases and, starting from byte
index `i`, stays at its initial value or below `i + length of rest`
bytes... basic bound: the loop result position is the initial one or
less than `i + rest.length + 1`. -/

theorem dfaSearchLoop_pos_le (d : DFA) :
    ∀ (rest : List Nat) (s i : Nat) (m : Nat × Nat),
      m.2 ≤ i →
      (dfaSearchLoop d rest s i m).2 ≤ i + rest.length := by
  intro rest
  induction rest with
  | nil =>
    intro s i m hm
    simp only [dfaSearchLoop]
    split
    · simp
    · simpa using hm
  | cons b rest ih =>
    intro s i m hm
    simp only [dfaSearchLoop]
    split
    · have := ih (d.next_state s b) (i + 1) (d.next_state s b, i) (by omega)
      simp only [List.length_cons]
      omega
    · split
      · simp only [List.length_cons]; omega
      · have := ih (d.next_state s b) (i + 1) m (by omega)
        simp only [List.length_cons]
        omega

/-- The recorded position is monotone: the loop never forgets below the
initial recorded position. -/

theorem dfaSearchLoop_pos_ge (d : DFA) :
    ∀ (rest : List Nat) (s i : Nat) (m : Nat × Nat),
      m.2 ≤ i →
      m.2 ≤ (dfaSearchLoop d rest s i m).2 ∨ (dfaSearchLoop d rest s i m) = m := by
  intro rest
  induction rest with
  | nil =>
    intro s i m hm
    simp only [dfaSearchLoop]
    split
    · left; simpa using hm
    · right; rfl
  | cons b rest ih =>
    intro s i m hm
    simp only [dfaSearchLoop]
    split
    · rcases ih (d.next_state s b) (i + 1) (d.next_state s b, i) (by omega) with h | h
      · left; omega
      · left; rw [h]; exact hm
    · split
      · right; rfl
      · exact ih (d.next_state s b) (i + 1) m (by omega)

/-- A returned match length is positive. -/

theorem dfa_search_next_len_pos {d : DFA} {input : List Nat} {p len : Nat}
    (h : dfa_search_next d input = some (p, len)) : 0 < len := by
  unfold dfa_search_next at h
  dsimp only at h
  split at h
  · rename_i hne
    simp only [Option.some.injEq, Prod.mk.injEq] at h
    omega
  · exact absurd h (by simp)

/-- A returned match length never exceeds the input length. -/

theorem dfa_search_next_len_le {d : DFA} {input : List Nat} {p len : Nat}
    (h : dfa_search_next d input = some (p, len)) : len ≤ input.length := by
  unfold dfa_search_next at h
  dsimp only at h
  split at h
  · simp only [Option.some.injEq, Prod.mk.injEq] at h
    have := dfaSearchLoop_pos_le d input d.start 0 (d.start, 0) (by simp)
    omega
  · exact absurd h (by simp)

/-- Unfolding the amended loop when the index is past the end. -/

theorem dfaSearchIdxAmended_none (d : DFA) (input : List Nat) (s i : Nat)
    (m : Nat × Nat) (h : input[i]? = none) :
    dfaSearchIdxAmended d input s i m =
      (if d.is_match_state (d.next_eoi_state s) then (d.next_eoi_state s, input.length)
       else m) := by
  rw [dfaSearchIdxAmended]
  split
  · rfl
  · rename_i b hb
    rw [h] at hb
    cases hb

/-- Unfolding the amended loop when the byte at the index exists. -/

theorem dfaSearchIdxAmended_some (d : DFA) (input : List Nat) (s i b : Nat)
    (m : Nat × Nat) (h : input[i]? = some b) :
    dfaSearchIdxAmended d input s i m =
      (if d.is_match_state (d.next_state s b) then
        dfaSearchIdxAmended d input (d.next_state s b) (i + 1) (d.next_state s b, i)
       else if d.is_dead_state (d.next_state s b) then m
       else dfaSearchIdxAmended d input (d.next_state s b) (i + 1) m) := by
  rw [dfaSearchIdxAmended]
  split
  · rename_i hb
    rw [h] at hb
    cases hb
  · rename_i b2 hb
    rw [h] at hb
    cases hb
    rfl

/-- The source loop agrees with the amended index-based loop, relating
the remaining-suffix view to the index view. -/

theorem dfaSearchLoop_eq_idxAmended (d : DFA) (input : List Nat) :
    ∀ (rest : List Nat) (s i : Nat) (m : Nat × Nat),
      rest = input.drop i → i ≤ input.length →
      dfaSearchLoop d rest s i m = dfaSearchIdxAmended d input s i m := by
  intro rest
  induction rest with
  | nil =>
    intro s i m hrest hle
    have hlen : input.length ≤ i := List.drop_eq_nil_iff.mp hrest.symm
    have hi : i = input.length := le_antisymm hle hlen
    have hnone : input[i]? = none := List.getElem?_eq_none hlen
    rw [dfaSearchIdxAmended_none d input s i m hnone]
    simp only [dfaSearchLoop, hi]
  | cons b rest ih =>
    intro s i m hrest hle
    have hhead : input[i]? = some b := by
      rw [← List.head?_drop, ← hrest]
      rfl
    have hdrop : input.drop (i + 1) = rest := by
      rw [← List.tail_drop, ← hrest]
      rfl
    have hi : i < input.length := (List.getElem?_eq_some.mp hhead).1
    rw [dfaSearchIdxAmended_some d input s i b m hhead]
    simp only [dfaSearchLoop]
    split
    · exact ih (d.next_state s b) (i + 1) (d.next_state s b, i) hdrop.symm (by omega)
    · split
      · rfl
      · exact ih (d.next_state s b) (i + 1) m hdrop.symm (by omega)

theorem runFrom_append (d : DFA) (u v : List Nat) :
    ∀ s, runFrom d s (u ++ v) = runFrom d (runFrom d s u) v := by
  induction u with
  | nil => intro s; rfl
  | cons b u ih =>
    intro s
    show runFrom d (d.next_state s b) (u ++ v) = _
    rw [ih]
    rfl

theorem run_snoc (d : DFA) (w : List Nat) (b : Nat) :
    run d (w ++ [b]) = d.next_state (run d w) b := by
  unfold run
  rw [runFrom_append]
  rfl

theorem dead_runFrom {d : DFA} {pats : List (List Nat → Bool)} (hM : Models d pats) :
    ∀ (v : List Nat) (s : Nat), d.is_dead_state s = true →
      d.is_dead_state (runFrom d s v) = true := by
  intro v
  induction v with
  | nil => intro s hs; exact hs
  | cons b v ih => intro s hs; exact ih (d.next_state s b) (hM.dead_next s b hs)

/-- `firstMatchIdx` returns an index of a matching pattern and every
earlier pattern rejects: the declaration-order tie-break. -/

theorem firstMatchIdx_spec :
    ∀ (pats : List (List Nat → Bool)) (w : List Nat) (p : Nat),
      firstMatchIdx pats w = some p →
      ∃ hp : p < pats.length, pats.get ⟨p, hp⟩ w = true ∧
        ∀ q (hq : q < p), pats.get ⟨q, Nat.lt_trans hq hp⟩ w = false := by
  intro pats
  induction pats with
  | nil => intro w p h; cases h
  | cons f rest ih =>
    intro w p h
    simp only [firstMatchIdx] at h
    split at h
    · rename_i hf
      cases h
      exact ⟨by simp, hf, fun q hq => absurd hq (Nat.not_lt_zero q)⟩
    · rename_i hf
      rcases Option.map_eq_some'.mp h with ⟨p0, hp0, rfl⟩
      rcases ih w p0 hp0 with ⟨hlt, hmatch, hleast⟩
      refine ⟨by simpa using Nat.succ_lt_succ hlt, hmatch, ?_⟩
      intro q hq
      cases q with
      | zero => simpa using hf
      | succ q0 => exact hleast q0 (Nat.lt_of_succ_lt_succ hq)

/-- When `firstMatchIdx` returns `none`, no pattern matches. -/

theorem firstMatchIdx_none :
    ∀ (pats : List (List Nat → Bool)) (w : List Nat),
      firstMatchIdx pats w = none →
      ∀ q (hq : q < pats.length), pats.get ⟨q, hq⟩ w = false := by
  intro pats
  induction pats with
  | nil => intro w _ q hq; cases hq
  | cons f rest ih =>
    intro w h q hq
    simp only [firstMatchIdx] at h
    split at h
    · cases h
    · rename_i hf
      cases q with
      | zero => simpa using hf
      | succ q0 =>
        exact ih w (by simpa using h) q0 (Nat.lt_of_succ_lt_succ hq)

theorem run_append (d : DFA) (u v : List Nat) :
    run d (u ++ v) = runFrom d (run d u) v := by
  unfold run
  rw [runFrom_append]

theorem take_concat_getElem (l : List Nat) (n : Nat) (h : n < l.length) :
    l.take n ++ [l[n]] = l.take (n + 1) := by
  rw [List.take_succ]
  simp [List.getElem?_eq_getElem h]

/-- Main loop invariant for longest-match: if, on entry, `m` records the
longest matching strict-prefix length seen so far (with its match state)
and all longer already-scanned lengths reject, then the loop returns the
longest matching prefix length overall together with a state whose
`match_pattern` is the lowest accepting pattern index, or a zero length
when no non-empty prefix matches. -/

theorem dfaSearchLoop_longest {d : DFA} {pats : List (List Nat → Bool)}
    (hM : Models d pats) (input : List Nat) :
    ∀ (rest done : List Nat) (m : Nat × Nat),
      input = done ++ rest →
      ((m.2 = 0 ∧ ∀ l, 1 ≤ l → l < done.length →
          firstMatchIdx pats (input.take l) = none) ∨
       (1 ≤ m.2 ∧ m.2 < done.length ∧
          firstMatchIdx pats (input.take m.2) = some (d.match_pattern m.1) ∧
          ∀ l, m.2 < l → l < done.length →
            firstMatchIdx pats (input.take l) = none)) →
      ∀ st len, dfaSearchLoop d rest (run d done) done.length m = (st, len) →
        (len = 0 → ∀ l, 1 ≤ l → l ≤ input.length →
          firstMatchIdx pats (input.take l) = none) ∧
        (1 ≤ len → len ≤ input.length ∧
          firstMatchIdx pats (input.take len) = some (d.match_pattern st) ∧
          ∀ l, len < l → l ≤ input.length →
            firstMatchIdx pats (input.take l) = none) := by
  intro rest
  induction rest with
  | nil =>
    intro done m hin hinv st len hloop
    have hdone : done = input := by simpa using hin.symm
    subst hdone
    simp only [dfaSearchLoop] at hloop
    split at hloop
    · rename_i hms
      cases hloop
      have hsome : (firstMatchIdx pats done).isSome = true := by
        rw [← hM.match_eoi done]; exact hms
      rcases Option.isSome_iff_exists.mp hsome with ⟨p, hp⟩
      constructor
      · intro h0 l h1 h2
        omega
      · intro _
        refine ⟨le_refl _, ?_, ?_⟩
        · rw [List.take_length, hp, hM.pattern_eoi done p hp]
        · intro l hl1 hl2
          omega
    · rename_i hms
      cases hloop
      have hnone : firstMatchIdx pats done = none := by
        have : (firstMatchIdx pats done).isSome = false := by
          rw [← hM.match_eoi done]; simpa using hms
        exact Option.not_isSome_iff_eq_none.mp (by simp [this])
      rcases hinv with ⟨hz, hall⟩ | ⟨h1, hlt, hfm, hall⟩
      · constructor
        · intro _ l hl1 hl2
          rcases Nat.lt_or_ge l done.length with h | h
          · exact hall l hl1 h
          · have : l = done.length := le_antisymm hl2 h
            rw [this, List.take_length]
            exact hnone
        · intro hge
          omega
      · constructor
        · intro h0
          omega
        · intro _
          refine ⟨Nat.le_of_lt hlt, hfm, ?_⟩
          intro l hl1 hl2
          rcases Nat.lt_or_ge l done.length with h | h
          · exact hall l hl1 h
          · have : l = done.length := le_antisymm hl2 h
            rw [this, List.take_length]
            exact hnone
  | cons b rest2 ih =>
    intro done m hin hinv st len hloop
    have hlen : input.length = done.length + rest2.length + 1 := by
      rw [hin]; simp; omega
    have hdrop : input.drop done.length = b :: rest2 := by
      rw [hin]; exact List.drop_left done (b :: rest2)
    have htake : input.take done.length = done := by
      rw [hin]; exact List.take_left done (b :: rest2)
    have htake1 : input.take (done.length + 1) = done ++ [b] := by
      rw [List.take_add, htake, hdrop]
      rfl
    have hrun1 : d.next_state (run d done) b = run d (done ++ [b]) := by
      rw [run_snoc]
    have hin2 : input = (done ++ [b]) ++ rest2 := by
      rw [hin]; simp
    have hlen2 : (done ++ [b]).length = done.length + 1 := by simp
    have hmd : d.is_match_state (run d (done ++ [b])) =
        (firstMatchIdx pats done).isSome := by
      rw [← htake]
      have := hM.match_delayed done b
      rw [htake]
      exact this
    simp only [dfaSearchLoop] at hloop
    split at hloop
    · rename_i hms
      rw [hrun1] at hms hloop
      have hsome : (firstMatchIdx pats done).isSome = true := by rw [← hmd]; exact hms
      rcases Option.isSome_iff_exists.mp hsome with ⟨p, hp⟩
      have hmp : d.match_pattern (run d (done ++ [b])) = p :=
        hM.pattern_delayed done b p hp
      have hnewinv : (((run d (done ++ [b]), done.length) : Nat × Nat).2 = 0 ∧
            ∀ l, 1 ≤ l → l < (done ++ [b]).length →
              firstMatchIdx pats (input.take l) = none) ∨
          (1 ≤ ((run d (done ++ [b]), done.length) : Nat × Nat).2 ∧
            ((run d (done ++ [b]), done.length) : Nat × Nat).2 < (done ++ [b]).length ∧
            firstMatchIdx pats
              (input.take ((run d (done ++ [b]), done.length) : Nat × Nat).2) =
              some (d.match_pattern ((run d (done ++ [b]), done.length) : Nat × Nat).1) ∧
            ∀ l, ((run d (done ++ [b]), done.length) : Nat × Nat).2 < l →
              l < (done ++ [b]).length → firstMatchIdx pats (input.take l) = none) := by
        rcases Nat.eq_zero_or_pos done.length with hz | hpos
        · left
          refine ⟨hz, ?_⟩
          intro l hl1 hl2
          rw [hlen2, hz] at hl2
          omega
        · right
          refine ⟨hpos, by rw [hlen2]; omega, ?_, ?_⟩
          · rw [htake, hp, hmp]
          · intro l hl1 hl2
            rw [hlen2] at hl2
            omega
      have := ih (done ++ [b]) (run d (done ++ [b]), done.length) hin2 hnewinv st len
        (by rw [← hlen2] at hloop; exact hloop)
      exact this
    · rename_i hms
      rw [hrun1] at hms
      have hnonei : firstMatchIdx pats done = none := by
        have : (firstMatchIdx pats done).isSome = false := by
          rw [← hmd]; simpa using hms
        exact Option.not_isSome_iff_eq_none.mp (by simp [this])
      split at hloop
      · -- dead state: the loop stops with `m`; no length ≥ done.length matches
        rename_i hdead
        rw [hrun1] at hdead
        cases hloop
        have hdeadrun : ∀ k, done.length + 1 ≤ k →
            d.is_dead_state (run d (input.take k)) = true := by
          intro k hk
          have hsplit : input.take k =
              input.take (done.length + 1) ++
                ((input.drop (done.length + 1)).take (k - (done.length + 1))) := by
            rw [← List.take_add]
            congr 1
            omega
          rw [hsplit, run_append, htake1]
          exact dead_runFrom hM _ _ hdead
        have hext : ∀ l, done.length ≤ l → l ≤ input.length →
            firstMatchIdx pats (input.take l) = none := by
          intro l hl1 hl2
          rcases Nat.eq_or_lt_of_le hl1 with rfl | hlt
          · rw [htake]; exact hnonei
          · rcases Nat.lt_or_ge l input.length with hless | hge
            · have hcat : input.take l ++ [input[l]] = input.take (l + 1) :=
                take_concat_getElem input l hless
              have hdl : d.is_dead_state (run d (input.take (l + 1))) = true :=
                hdeadrun (l + 1) (by omega)
              have : d.is_match_state (run d (input.take l ++ [input[l]])) =
                  (firstMatchIdx pats (input.take l)).isSome :=
                hM.match_delayed (input.take l) input[l]
              rw [hcat] at this
              have hmf : d.is_match_state (run d (input.take (l + 1))) = false :=
                hM.dead_no_match _ hdl
              rw [hmf] at this
              exact Option.not_isSome_iff_eq_none.mp (by simp [← this])
            · have hle : l = input.length := le_antisymm hl2 hge
              subst hle
              have hdl : d.is_dead_state (run d input) = true := by
                have := hdeadrun input.length (by omega)
                rwa [List.take_length] at this
              have hde : d.is_dead_state (d.next_eoi_state (run d input)) = true :=
                hM.dead_eoi _ hdl
              have hmf : d.is_match_state (d.next_eoi_state (run d input)) = false :=
                hM.dead_no_match _ hde
              have := hM.match_eoi input
              rw [hmf] at this
              rw [List.take_length]
              exact Option.not_isSome_iff_eq_none.mp (by simp [← this])
        rcases hinv with ⟨hz, hall⟩ | ⟨h1, hlt, hfm, hall⟩
        · constructor
          · intro _ l hl1 hl2
            rcases Nat.lt_or_ge l done.length with h | h
            · exact hall l hl1 h
            · exact hext l h hl2
          · intro hge
            omega
        · constructor
          · intro h0
            omega
          · intro _
            refine ⟨by omega, hfm, ?_⟩
            intro l hl1 hl2
            rcases Nat.lt_or_ge l done.length with h | h
            · exact hall l hl1 h
            · exact hext l h hl2
      · -- neither match nor dead: continue with `m` unchanged
        rw [hrun1] at hloop
        have hnewinv : (m.2 = 0 ∧ ∀ l, 1 ≤ l → l < (done ++ [b]).length →
              firstMatchIdx pats (input.take l) = none) ∨
            (1 ≤ m.2 ∧ m.2 < (done ++ [b]).length ∧
              firstMatchIdx pats (input.take m.2) = some (d.match_pattern m.1) ∧
              ∀ l, m.2 < l → l < (done ++ [b]).length →
                firstMatchIdx pats (input.take l) = none) := by
          rcases hinv with ⟨hz, hall⟩ | ⟨h1, hlt, hfm, hall⟩
          · left
            refine ⟨hz, ?_⟩
            intro l hl1 hl2
            rw [hlen2] at hl2
            rcases Nat.lt_or_ge l done.length with h | h
            · exact hall l hl1 h
            · have : l = done.length := by omega
              rw [this, htake]
              exact hnonei
          · right
            refine ⟨h1, by rw [hlen2]; omega, hfm, ?_⟩
            intro l hl1 hl2
            rw [hlen2] at hl2
            rcases Nat.lt_or_ge l done.length with h | h
            · exact hall l hl1 h
            · have : l = done.length := by omega
              rw [this, htake]
              exact hnonei
        exact ih (done ++ [b]) m hin2 hnewinv st len
          (by rw [← hlen2] at hloop; exact hloop)

/-! ### Unfolding equations for `nextLoop` -/

theorem nextLoop_eq_empty (L : Lexer) (input : List Nat) (c : Nat)
    (h : input.drop c = []) : nextLoop L input c = (none, c, []) := by
  rw [nextLoop]
  split
  · rfl
  · rename_i x xs hre
    rw [h] at hre
    cases hre

theorem nextLoop_eq_nomatch (L : Lexer) (input : List Nat) (c b : Nat) (bs : List Nat)
    (h1 : input.drop c = b :: bs)
    (h2 : dfa_search_next L.dfa (input.drop c) = none) :
    nextLoop L input c = (some (StepRes.err c), c, []) := by
  rw [nextLoop]
  split
  · rename_i hre
    rw [h1] at hre
    cases hre
  · rename_i x xs hre
    split
    · rfl
    · rename_i p hs
      rw [h2] at hs
      cases hs

theorem nextLoop_eq_skip (L : Lexer) (input : List Nat) (c b : Nat) (bs : List Nat)
    (pat len : Nat)
    (h1 : input.drop c = b :: bs)
    (h2 : dfa_search_next L.dfa (input.drop c) = some (pat, len))
    (h3 : L.variants.get? pat = none) :
    nextLoop L input c =
      ((nextLoop L input (c + len)).1, (nextLoop L input (c + len)).2.1,
        (c, c + len) :: (nextLoop L input (c + len)).2.2) := by
  rw [nextLoop]
  split
  · rename_i hre
    rw [h1] at hre
    cases hre
  · rename_i x xs hre
    split
    · rename_i hs
      rw [h2] at hs
      cases hs
    · rename_i p l hs
      rw [h2] at hs
      cases hs
      split
      · rename_i v hv
        rw [h3] at hv
        cases hv
      · rfl

theorem nextLoop_eq_tok (L : Lexer) (input : List Nat) (c b : Nat) (bs : List Nat)
    (pat len : Nat) (v : Variant)
    (h1 : input.drop c = b :: bs)
    (h2 : dfa_search_next L.dfa (input.drop c) = some (pat, len))
    (h3 : L.variants.get? pat = some v)
    (h4 : v.hook = none) :
    nextLoop L input c =
      (some (StepRes.tok c (mkToken v pat ((input.drop c).take len)) (c + len)),
        c + len, []) := by
  rw [nextLoop]
  split
  · rename_i hre
    rw [h1] at hre
    cases hre
  · rename_i x xs hre
    split
    · rename_i hs
      rw [h2] at hs
      cases hs
    · rename_i p l hs
      rw [h2] at hs
      cases hs
      split
      · rename_i v2 hv
        rw [h3] at hv
        cases hv
        split
        · rename_i f hf
          rw [h4] at hf
          cases hf
        · rfl
      · rename_i hv
        rw [h3] at hv
        cases hv

theorem nextLoop_eq_hookfail (L : Lexer) (input : List Nat) (c b : Nat) (bs : List Nat)
    (pat len : Nat) (v : Variant) (f : List Nat → List Nat → Option Nat)
    (h1 : input.drop c = b :: bs)
    (h2 : dfa_search_next L.dfa (input.drop c) = some (pat, len))
    (h3 : L.variants.get? pat = some v)
    (h4 : v.hook = some f)
    (h5 : f ((input.drop c).take len) ((input.drop c).drop len) = none) :
    nextLoop L input c = (some (StepRes.err c), c, []) := by
  rw [nextLoop]
  split
  · rename_i hre
    rw [h1] at hre
    cases hre
  · rename_i x xs hre
    split
    · rename_i hs
      rw [h2] at hs
    · rename_i p l hs
      rw [h2] at hs
      cases hs
      split
      · rename_i v2 hv
        rw [h3] at hv
        cases hv
        split
        · rename_i f2 hf
          rw [h4] at hf
          cases hf
          split
          · rfl
          · rename_i e hfe
            rw [h5] at hfe
            simp at hfe
        · rename_i hf
          rw [h4] at hf
          simp at hf
      · rename_i hv
        rw [h3] at hv
        simp at hv

theorem nextLoop_eq_hookok (L : Lexer) (input : List Nat) (c b : Nat) (bs : List Nat)
    (pat len : Nat) (v : Variant) (f : List Nat → List Nat → Option Nat) (extra : Nat)
    (h1 : input.drop c = b :: bs)
    (h2 : dfa_search_next L.dfa (input.drop c) = some (pat, len))
    (h3 : L.variants.get? pat = some v)
    (h4 : v.hook = some f)
    (h5 : f ((input.drop c).take len) ((input.drop c).drop len) = some extra) :
    nextLoop L input c =
      (some (StepRes.tok c (mkToken v pat ((input.drop c).take (len + extra)))
        (c + (len + extra))), c + (len + extra), []) := by
  rw [nextLoop]
  split
  · rename_i hre
    rw [h1] at hre
    cases hre
  · rename_i x xs hre
    split
    · rename_i hs
      rw [h2] at hs
      cases hs
    · rename_i p l hs
      rw [h2] at hs
      cases hs
      split
      · rename_i v2 hv
        rw [h3] at hv
        cases hv
        split
        · rename_i f2 hf
          rw [h4] at hf
          cases hf
          split
          · rename_i hfe
            rw [h5] at hfe
            cases hfe
          · rename_i e hfe
            rw [h5] at hfe
            cases hfe
            rfl
        · rename_i hf
          rw [h4] at hf
          cases hf
      · rename_i hv
        rw [h3] at hv
        cases hv

/-- The per-call specification of the generated `next`: the cursor never
decreases; the skipped spans followed by the emitted token's span tile
the interval from the old cursor to the new one with non-empty spans;
end-of-sequence leaves the cursor at the end of the input; an error
leaves the cursor at the reported offset, which is inside the input and
at which either the Scan Step failed or the variant's hook failed; an
emitted token ends at the new cursor, starts at or after the old one, is
non-empty, and its variant index is a token (not skip) pattern; and with
well-behaved hooks the cursor stays within the input. -/

theorem nextLoop_spec (L : Lexer) (input : List Nat) :
    ∀ c,
      c ≤ (nextLoop L input c).2.1 ∧
      SpanChain c ((nextLoop L input c).2.2 ++ resSpan (nextLoop L input c).1)
        (nextLoop L input c).2.1 ∧
      ((nextLoop L input c).1 = none → input.length ≤ (nextLoop L input c).2.1) ∧
      (∀ o, (nextLoop L input c).1 = some (StepRes.err o) →
        (nextLoop L input c).2.1 = o ∧ o < input.length ∧
        (dfa_search_next L.dfa (input.drop o) = none ∨
          ∃ pat len v f,
            dfa_search_next L.dfa (input.drop o) = some (pat, len) ∧
            L.variants.get? pat = some v ∧ v.hook = some f ∧
            f ((input.drop o).take len) ((input.drop o).drop len) = none)) ∧
      (∀ s t e, (nextLoop L input c).1 = some (StepRes.tok s t e) →
        e = (nextLoop L input c).2.1 ∧ c ≤ s ∧ s < e ∧
        t.idx < L.variants.length) ∧
      (HooksBounded L → c ≤ input.length → (nextLoop L input c).2.1 ≤ input.length) := by
  suffices H : ∀ n c, input.length - c < n →
      c ≤ (nextLoop L input c).2.1 ∧
      SpanChain c ((nextLoop L input c).2.2 ++ resSpan (nextLoop L input c).1)
        (nextLoop L input c).2.1 ∧
      ((nextLoop L input c).1 = none → input.length ≤ (nextLoop L input c).2.1) ∧
      (∀ o, (nextLoop L input c).1 = some (StepRes.err o) →
        (nextLoop L input c).2.1 = o ∧ o < input.length ∧
        (dfa_search_next L.dfa (input.drop o) = none ∨
          ∃ pat len v f,
            dfa_search_next L.dfa (input.drop o) = some (pat, len) ∧
            L.variants.get? pat = some v ∧ v.hook = some f ∧
            f ((input.drop o).take len) ((input.drop o).drop len) = none)) ∧
      (∀ s t e, (nextLoop L input c).1 = some (StepRes.tok s t e) →
        e = (nextLoop L input c).2.1 ∧ c ≤ s ∧ s < e ∧
        t.idx < L.variants.length) ∧
      (HooksBounded L → c ≤ input.length → (nextLoop L input c).2.1 ≤ input.length) by
    intro c
    exact H (input.length - c + 1) c (by omega)
  intro n
  induction n with
  | zero =>
    intro c h
    omega
  | succ n ih =>
    intro c hlt
    rcases hre : input.drop c with _ | ⟨b, bs⟩
    · have hlc : input.length ≤ c := List.drop_eq_nil_iff.mp hre
      rw [nextLoop_eq_empty L input c hre]
      dsimp only
      refine ⟨le_refl c, ?_, ?_, ?_, ?_, ?_⟩
      · show SpanChain c ([] ++ resSpan none) c
        simp only [resSpan, List.append_nil]
        rfl
      · intro _
        exact hlc
      · intro o ho
        cases ho
      · intro s t e hst
        cases hst
      · intro _ _
        omega
    · have hc : c < input.length := by
        by_contra hcc
        rw [List.drop_eq_nil_of_le (by omega)] at hre
        cases hre
      rcases hs : dfa_search_next L.dfa (input.drop c) with _ | ⟨pat, len⟩
      · rw [nextLoop_eq_nomatch L input c b bs hre hs]
        dsimp only
        refine ⟨le_refl c, ?_, ?_, ?_, ?_, ?_⟩
        · show SpanChain c ([] ++ resSpan (some (StepRes.err c))) c
          simp only [resSpan, List.append_nil]
          rfl
        · intro hno
          cases hno
        · intro o ho
          have : o = c := by cases ho; rfl
          subst this
          exact ⟨rfl, hc, Or.inl hs⟩
        · intro s t e hst
          cases hst
        · intro _ _
          omega
      · have hlen : 0 < len := dfa_search_next_len_pos hs
        have hlenle : len ≤ input.length - c := by
          have := dfa_search_next_len_le hs
          rwa [List.length_drop] at this
        rcases hv : L.variants.get? pat with _ | ⟨v⟩
        · -- skip pattern: recurse
          rw [nextLoop_eq_skip L input c b bs pat len hre hs hv]
          dsimp only
          have hrec := ih (c + len) (by omega)
          obtain ⟨r1, r2, r3, r4, r5, r6⟩ := hrec
          refine ⟨by omega, ?_, ?_, ?_, ?_, ?_⟩
          · show SpanChain c ((c, c + len) :: (nextLoop L input (c + len)).2.2 ++
              resSpan (nextLoop L input (c + len)).1) (nextLoop L input (c + len)).2.1
            exact ⟨rfl, by omega, r2⟩
          · exact r3
          · exact r4
          · intro s t e hst
            obtain ⟨he, hcs, hse, hidx⟩ := r5 s t e hst
            exact ⟨he, by omega, hse, hidx⟩
          · intro hb hcl
            exact r6 hb (by omega)
        · rcases hf : v.hook with _ | ⟨f⟩
          · -- plain token
            rw [nextLoop_eq_tok L input c b bs pat len v hre hs hv hf]
            dsimp only
            have hpat : pat < L.variants.length := by
              rcases List.get?_eq_some.mp hv with ⟨h, _⟩
              exact h
            refine ⟨by omega, ?_, ?_, ?_, ?_, ?_⟩
            · show SpanChain c ([] ++ resSpan (some (StepRes.tok c
                (mkToken v pat ((input.drop c).take len)) (c + len)))) (c + len)
              simp only [resSpan, List.nil_append]
              exact ⟨rfl, by omega, rfl⟩
            · intro hno
              cases hno
            · intro o ho
              cases ho
            · intro s t e hst
              cases hst
              exact ⟨rfl, le_refl c, by omega, hpat⟩
            · intro _ _
              omega
          · rcases hfe : f ((input.drop c).take len) ((input.drop c).drop len)
              with _ | ⟨extra⟩
            · -- hook failure
              rw [nextLoop_eq_hookfail L input c b bs pat len v f hre hs hv hf hfe]
              dsimp only
              refine ⟨le_refl c, ?_, ?_, ?_, ?_, ?_⟩
              · show SpanChain c ([] ++ resSpan (some (StepRes.err c))) c
                simp only [resSpan, List.append_nil]
                rfl
              · intro hno
                cases hno
              · intro o ho
                have : o = c := by cases ho; rfl
                subst this
                exact ⟨rfl, hc, Or.inr ⟨pat, len, v, f, hs, hv, hf, hfe⟩⟩
              · intro s t e hst
                cases hst
              · intro _ _
                omega
            · -- hook success: extended token
              rw [nextLoop_eq_hookok L input c b bs pat len v f extra hre hs hv hf hfe]
              dsimp only
              have hpat : pat < L.variants.length := by
                rcases List.get?_eq_some.mp hv with ⟨h, _⟩
                exact h
              refine ⟨by omega, ?_, ?_, ?_, ?_, ?_⟩
              · show SpanChain c ([] ++ resSpan (some (StepRes.tok c
                  (mkToken v pat ((input.drop c).take (len + extra)))
                  (c + (len + extra))))) (c + (len + extra))
                simp only [resSpan, List.nil_append]
                exact ⟨rfl, by omega, rfl⟩
              · intro hno
                cases hno
              · intro o ho
                cases ho
              · intro s t e hst
                cases hst
                exact ⟨rfl, le_refl c, by omega, hpat⟩
              · intro hb hcl
                have hvmem : v ∈ L.variants := List.get?_mem hv
                have hextra : extra ≤ ((input.drop c).drop len).length :=
                  hb v hvmem f hf _ _ extra hfe
                rw [List.length_drop, List.length_drop] at hextra
                omega

/-! ### Spans, slices and multi-step facts -/

theorem SpanChain_le : ∀ (sp : List (Nat × Nat)) (a b : Nat), SpanChain a sp b → a ≤ b := by
  intro sp
  induction sp with
  | nil =>
    intro a b h
    exact le_of_eq h
  | cons p rest ih =>
    intro a b h
    obtain ⟨p1, p2⟩ := p
    obtain ⟨rfl, hlt, hch⟩ := h
    exact le_trans (le_of_lt hlt) (ih p2 b hch)

theorem SpanChain_append : ∀ (u : List (Nat × Nat)) (a b c : Nat) (v : List (Nat × Nat)),
    SpanChain a u b → SpanChain b v c → SpanChain a (u ++ v) c := by
  intro u
  induction u with
  | nil =>
    intro a b c v h1 h2
    cases h1
    exact h2
  | cons p rest ih =>
    intro a b c v h1 h2
    obtain ⟨p1, p2⟩ := p
    obtain ⟨rfl, hlt, hch⟩ := h1
    exact ⟨rfl, hlt, ih p2 b c v hch h2⟩

theorem slice_append (input : List Nat) (s e b : Nat) (h1 : s ≤ e) (h2 : e ≤ b) :
    slice input s e ++ slice input e b = slice input s b := by
  unfold slice
  rcases le_or_lt s (input.take e).length with hle | hgt
  · have htb : input.take b = input.take e ++ (input.take b).drop e := by
      conv_lhs => rw [← List.take_append_drop e (input.take b)]
      rw [List.take_take, Nat.min_eq_left h2]
    conv_rhs => rw [htb, List.drop_append_of_le_length hle]
  · have hlen : input.length < s := by
      rw [List.length_take] at hgt
      omega
    have e1 : (input.take e).drop s = [] := by
      apply List.drop_eq_nil_of_le
      rw [List.length_take]
      omega
    have e2 : (input.take b).drop e = [] := by
      apply List.drop_eq_nil_of_le
      rw [List.length_take]
      omega
    have e3 : (input.take b).drop s = [] := by
      apply List.drop_eq_nil_of_le
      rw [List.length_take]
      omega
    rw [e1, e2, e3]
    rfl

theorem SpanChain_slice (input : List Nat) :
    ∀ (sp : List (Nat × Nat)) (a b : Nat), SpanChain a sp b →
      ((sp.map fun p => slice input p.1 p.2).flatten) = slice input a b := by
  intro sp
  induction sp with
  | nil =>
    intro a b h
    cases h
    simp only [List.map_nil, List.flatten_nil]
    unfold slice
    rw [List.drop_eq_nil_of_le]
    rw [List.length_take]
    omega
  | cons p rest ih =>
    intro a b h
    obtain ⟨p1, p2⟩ := p
    obtain ⟨rfl, hlt, hch⟩ := h
    simp only [List.map_cons, List.flatten_cons]
    rw [ih p2 b hch]
    exact slice_append input a p2 b (le_of_lt hlt) (SpanChain_le rest p2 b hch)

theorem allSpans_append (rs rs2 : List (Option StepRes × List (Nat × Nat))) :
    allSpans (rs ++ rs2) = allSpans rs ++ allSpans rs2 := by
  unfold allSpans
  rw [List.map_append, List.flatten_append]

theorem emitted_append (rs rs2 : List (Option StepRes × List (Nat × Nat))) :
    emitted (rs ++ rs2) = emitted rs ++ emitted rs2 :=
  List.filterMap_append rs rs2 _

theorem emitted_single (r : Option StepRes) (sk : List (Nat × Nat)) :
    emitted [(r, sk)] = (match r with
      | some (StepRes.tok s t e) => [(s, t, e)]
      | _ => []) := by
  cases r with
  | none => rfl
  | some r =>
    cases r with
    | tok s t e => rfl
    | err o => rfl

/-- The multi-step invariant of the iterator, by induction over the
number of calls: the cursor is monotone; the covered spans tile the
interval from the start cursor to the current one; every emitted token
is non-empty, within the covered interval, and a non-skip variant;
emitted tokens are chained (`prev.end ≤ next.start`); and with bounded
hooks the cursor stays inside the input. -/

theorem steps_spec (L : Lexer) (input : List Nat) (c : Nat) :
    ∀ k,
      c ≤ consumedAfter L input c k ∧
      SpanChain c (allSpans (stepResults L input c k)) (consumedAfter L input c k) ∧
      (∀ t ∈ emitted (stepResults L input c k),
        c ≤ t.1 ∧ t.1 < t.2.2 ∧ t.2.2 ≤ consumedAfter L input c k ∧
        t.2.1.idx < L.variants.length) ∧
      List.Chain' (fun a b => a.2.2 ≤ b.1) (emitted (stepResults L input c k)) ∧
      (HooksBounded L → c ≤ input.length → consumedAfter L input c k ≤ input.length) := by
  intro k
  induction k with
  | zero =>
    refine ⟨le_refl c, ?_, ?_, ?_, ?_⟩
    · show SpanChain c [] c
      rfl
    · intro t ht
      cases ht
    · exact List.chain'_nil
    · intro _ h
      exact h
  | succ k ih =>
    obtain ⟨i1, i2, i3, i4, i5⟩ := ih
    obtain ⟨n1, n2, n3, n4, n5, n6⟩ := nextLoop_spec L input (consumedAfter L input c k)
    have hca : consumedAfter L input c (k + 1) =
        (nextLoop L input (consumedAfter L input c k)).2.1 := rfl
    have hsr : stepResults L input c (k + 1) = stepResults L input c k ++
        [(resultAt L input c k, skipsAt L input c k)] := rfl
    refine ⟨?_, ?_, ?_, ?_, ?_⟩
    · rw [hca]
      exact le_trans i1 n1
    · rw [hca, hsr, allSpans_append]
      refine SpanChain_append _ c _ _ _ i2 ?_
      show SpanChain (consumedAfter L input c k)
        (stepSpans (resultAt L input c k, skipsAt L input c k) ++ []) _
      rw [List.append_nil]
      exact n2
    · rw [hca, hsr, emitted_append, emitted_single]
      intro t ht
      rcases List.mem_append.mp ht with hold | hnew
      · obtain ⟨h1, h2, h3, h4⟩ := i3 t hold
        exact ⟨h1, h2, le_trans h3 n1, h4⟩
      · rcases hres : resultAt L input c k with _ | ⟨s, t2, e⟩ | ⟨o⟩
        · rw [hres] at hnew
          cases hnew
        · rw [hres] at hnew
          have ht2 : t = (s, t2, e) := by
            simpa using hnew
          subst ht2
          obtain ⟨he, hcs, hse, hidx⟩ := n5 s t2 e hres
          exact ⟨le_trans i1 hcs, hse,
            le_of_eq ((show ((s, t2, e) : Nat × Token × Nat).2.2 = e from rfl).trans he), hidx⟩
        · rw [hres] at hnew
          cases hnew
    · rw [hsr, emitted_append, emitted_single]
      refine List.Chain'.append i4 ?_ ?_
      · rcases hres : resultAt L input c k with _ | ⟨s, t2, e⟩ | ⟨o⟩
        · exact List.chain'_nil
        · exact List.chain'_singleton _
        · exact List.chain'_nil
      · intro x hx y hy
        have hxmem : x ∈ emitted (stepResults L input c k) := List.mem_of_mem_getLast? hx
        obtain ⟨_, _, hxe, _⟩ := i3 x hxmem
        rcases hres : resultAt L input c k with _ | ⟨s, t2, e⟩ | ⟨o⟩
        · rw [hres] at hy
          cases hy
        · rw [hres] at hy
          have hy2 : y = (s, t2, e) := by
            have := hy
            simp at this
            exact this.symm
          subst hy2
          obtain ⟨he, hcs, hse, hidx⟩ := n5 s t2 e hres
          exact le_trans hxe hcs
        · rw [hres] at hy
          cases hy
    · intro hb hcl
      rw [hca]
      exact n6 hb (i5 hb hcl)

/-! ### The example DFA satisfies the `Models` contract -/

theorem exDfa_runFrom_dead : ∀ (w : List Nat), runFrom exDfa 5 w = 5 := by
  intro w
  induction w with
  | nil => rfl
  | cons b rest ih =>
    show runFrom exDfa (exDfa.next_state 5 b) rest = 5
    have h5 : exDfa.next_state 5 b = 5 := rfl
    rw [h5]
    exact ih

theorem exDfa_next34 : ∀ (z s : Nat), s = 3 ∨ s = 4 ∨ s = 5 →
    exDfa.next_state s z = 5 := by
  intro z s h
  rcases h with rfl | rfl | rfl <;> rfl

theorem exDfa_two (x y : Nat) :
    exDfa.next_state (exDfa.next_state 0 x) y = 3 ∨
    exDfa.next_state (exDfa.next_state 0 x) y = 4 ∨
    exDfa.next_state (exDfa.next_state 0 x) y = 5 := by
  by_cases hx : x = 97
  · left
    subst hx
    rfl
  · by_cases hx2 : x = 32
    · right; left
      subst hx2
      rfl
    · right; right
      have h0 : exDfa.next_state 0 x = 5 := by
        show (if (0 : Nat) = 0 then (if x = 97 then 1 else if x = 32 then 2 else 5)
          else if (0 : Nat) = 1 then 3 else if (0 : Nat) = 2 then 4 else 5) = 5
        simp [hx, hx2]
      rw [h0]
      rfl

theorem exDfa_run_long (x y : Nat) (w : List Nat) :
    runFrom exDfa (exDfa.next_state (exDfa.next_state 0 x) y) w = 3 ∨
    runFrom exDfa (exDfa.next_state (exDfa.next_state 0 x) y) w = 4 ∨
    runFrom exDfa (exDfa.next_state (exDfa.next_state 0 x) y) w = 5 := by
  rcases w with _ | ⟨z, w2⟩
  · exact exDfa_two x y
  · right; right
    show runFrom exDfa
      (exDfa.next_state (exDfa.next_state (exDfa.next_state 0 x) y) z) w2 = 5
    rw [exDfa_next34 z _ (exDfa_two x y)]
    exact exDfa_runFrom_dead w2

theorem exDfa_run_long5 (x y z : Nat) (w : List Nat) :
    runFrom exDfa (exDfa.next_state (exDfa.next_state 0 x) y) (z :: w) = 5 := by
  show runFrom exDfa
    (exDfa.next_state (exDfa.next_state (exDfa.next_state 0 x) y) z) w = 5
  rw [exDfa_next34 z _ (exDfa_two x y)]
  exact exDfa_runFrom_dead w

theorem firstMatchIdx_exPats_nil : firstMatchIdx exPats [] = none := by decide

theorem firstMatchIdx_exPats_one (x : Nat) :
    firstMatchIdx exPats [x] =
      (if x = 97 then some 0 else if x = 32 then some 1 else none) := by
  show (if patA [x] then some 0
    else (if patSpace [x] then some 0 else Option.map _ (firstMatchIdx [] [x])).map _) = _
  by_cases hx : x = 97
  · subst hx
    rfl
  · by_cases hx2 : x = 32
    · subst hx2
      rfl
    · have h1 : patA [x] = false := by
        unfold patA
        simp [hx]
      have h2 : patSpace [x] = false := by
        unfold patSpace
        simp [hx2]
      rw [h1, h2]
      simp [firstMatchIdx, hx, hx2]

theorem firstMatchIdx_exPats_long (x y : Nat) (w : List Nat) :
    firstMatchIdx exPats (x :: y :: w) = none := by
  have h1 : patA (x :: y :: w) = false := by
    unfold patA
    simp
  have h2 : patSpace (x :: y :: w) = false := by
    unfold patSpace
    simp
  show (if patA (x :: y :: w) then some 0
    else (if patSpace (x :: y :: w) then some 0
      else Option.map _ (firstMatchIdx [] (x :: y :: w))).map _) = _
  rw [h1, h2]
  rfl

theorem exDfa_models : Models exDfa exPats := by
  refine ⟨?_, ?_, ?_, ?_, ?_, ?_, ?_⟩
  · -- match_delayed
    intro u b
    rcases u with _ | ⟨x, u2⟩
    · rw [firstMatchIdx_exPats_nil]
      show exDfa.is_match_state (exDfa.next_state 0 b) = false
      by_cases hb : b = 97
      · subst hb; rfl
      · by_cases hb2 : b = 32
        · subst hb2; rfl
        · have h0 : exDfa.next_state 0 b = 5 := by
            show (if (0 : Nat) = 0 then (if b = 97 then 1 else if b = 32 then 2 else 5)
              else if (0 : Nat) = 1 then 3 else if (0 : Nat) = 2 then 4 else 5) = 5
            simp [hb, hb2]
          rw [h0]
          rfl
    · rcases u2 with _ | ⟨y, u3⟩
      · rw [firstMatchIdx_exPats_one]
        show exDfa.is_match_state (exDfa.next_state (exDfa.next_state 0 x) b) = _
        by_cases hx : x = 97
        · subst hx
          rfl
        · by_cases hx2 : x = 32
          · subst hx2
            simp [hx]
            rfl
          · have h0 : exDfa.next_state 0 x = 5 := by
              show (if (0 : Nat) = 0 then (if x = 97 then 1 else if x = 32 then 2 else 5)
                else if (0 : Nat) = 1 then 3 else if (0 : Nat) = 2 then 4 else 5) = 5
              simp [hx, hx2]
            rw [h0]
            simp [hx, hx2]
            rfl
      · rw [firstMatchIdx_exPats_long]
        show exDfa.is_match_state
          (runFrom exDfa (exDfa.next_state (exDfa.next_state 0 x) y) (u3 ++ [b])) = _
        rcases u3 with _ | ⟨z, u4⟩
        · rw [show ([] ++ [b] : List Nat) = b :: [] from rfl, exDfa_run_long5]
          rfl
        · rw [show ((z :: u4) ++ [b] : List Nat) = z :: (u4 ++ [b]) from rfl,
            exDfa_run_long5]
          rfl
  · -- pattern_delayed
    intro u b p hp
    rcases u with _ | ⟨x, u2⟩
    · rw [firstMatchIdx_exPats_nil] at hp
      cases hp
    · rcases u2 with _ | ⟨y, u3⟩
      · rw [firstMatchIdx_exPats_one] at hp
        by_cases hx : x = 97
        · subst hx
          simp at hp
          subst hp
          rfl
        · by_cases hx2 : x = 32
          · subst hx2
            simp [hx] at hp
            subst hp
            rfl
          · simp [hx, hx2] at hp
      · rw [firstMatchIdx_exPats_long] at hp
        cases hp
  · -- match_eoi
    intro w
    rcases w with _ | ⟨x, w2⟩
    · rw [firstMatchIdx_exPats_nil]
      rfl
    · rcases w2 with _ | ⟨y, w3⟩
      · rw [firstMatchIdx_exPats_one]
        show exDfa.is_match_state (exDfa.next_eoi_state (exDfa.next_state 0 x)) = _
        by_cases hx : x = 97
        · subst hx; rfl
        · by_cases hx2 : x = 32
          · subst hx2
            simp [hx]
            rfl
          · have h0 : exDfa.next_state 0 x = 5 := by
              show (if (0 : Nat) = 0 then (if x = 97 then 1 else if x = 32 then 2 else 5)
                else if (0 : Nat) = 1 then 3 else if (0 : Nat) = 2 then 4 else 5) = 5
              simp [hx, hx2]
            rw [h0]
            simp [hx, hx2]
            rfl
      · rw [firstMatchIdx_exPats_long]
        show exDfa.is_match_state (exDfa.next_eoi_state
          (runFrom exDfa (exDfa.next_state (exDfa.next_state 0 x) y) w3)) = _
        rcases exDfa_run_long x y w3 with h | h | h <;> rw [h] <;> rfl
  · -- pattern_eoi
    intro w p hp
    rcases w with _ | ⟨x, w2⟩
    · rw [firstMatchIdx_exPats_nil] at hp
      cases hp
    · rcases w2 with _ | ⟨y, w3⟩
      · rw [firstMatchIdx_exPats_one] at hp
        by_cases hx : x = 97
        · subst hx
          simp at hp
          subst hp
          rfl
        · by_cases hx2 : x = 32
          · subst hx2
            simp [hx] at hp
            subst hp
            rfl
          · simp [hx, hx2] at hp
      · rw [firstMatchIdx_exPats_long] at hp
        cases hp
  · -- dead_next
    intro s b hs
    have h5 : s = 5 := by
      have : (s == 5) = true := hs
      simpa using this
    subst h5
    rfl
  · -- dead_eoi
    intro s hs
    have h5 : s = 5 := by
      have : (s == 5) = true := hs
      simpa using this
    subst h5
    rfl
  · -- dead_no_match
    intro s hs
    have h5 : s = 5 := by
      have : (s == 5) = true := hs
      simpa using this
    subst h5
    rfl

/-! ### Concrete runs of the example lexer and chain helpers -/

theorem nextLoop_ex_space : nextLoop exLexer [32, 98] 0 =
    (some (StepRes.err 1), 1, [(0, 1)]) := by
  have h2 : nextLoop exLexer [32, 98] 1 = (some (StepRes.err 1), 1, []) :=
    nextLoop_eq_nomatch exLexer [32, 98] 1 98 [] rfl (by decide)
  have h1 := nextLoop_eq_skip exLexer [32, 98] 0 32 [98] 1 1 rfl (by decide) rfl
  have e : (0 : Nat) + 1 = 1 := rfl
  rw [h1, e, h2]

theorem nextLoop_ex_b : nextLoop exLexer [98] 0 = (some (StepRes.err 0), 0, []) :=
  nextLoop_eq_nomatch exLexer [98] 0 98 [] rfl (by decide)

theorem nextLoop_ex_a : nextLoop exLexer [97] 0 =
    (some (StepRes.tok 0 ⟨0, some [97]⟩ 1), 1, []) := by
  have := nextLoop_eq_tok exLexer [97] 0 97 [] 0 1 ⟨none, true⟩ rfl (by decide) rfl rfl
  exact this

theorem exLexer_hooks_bounded : HooksBounded exLexer := by
  intro v hv f hf m t e hfme
  have hv1 : v ∈ [(⟨none, true⟩ : Variant)] := hv
  have hv2 : v = ⟨none, true⟩ := by
    simpa using hv1
  subst hv2
  cases hf

theorem SpanChain_mem_lt : ∀ (sp : List (Nat × Nat)) (a b : Nat),
    SpanChain a sp b → ∀ p ∈ sp, p.1 < p.2 := by
  intro sp
  induction sp with
  | nil =>
    intro a b h p hp
    cases hp
  | cons q rest ih =>
    intro a b h p hp
    obtain ⟨q1, q2⟩ := q
    obtain ⟨rfl, hlt, hch⟩ := h
    rcases List.mem_cons.mp hp with rfl | hmem
    · exact hlt
    · exact ih q2 b hch p hmem

theorem chain_ends_starts : ∀ (l : List (Nat × Token × Nat)),
    List.Chain' (fun a b => a.2.2 ≤ b.1) l → (∀ t ∈ l, t.1 < t.2.2) →
    List.Chain' (fun a b => a.1 < b.1) l := by
  intro l
  induction l with
  | nil =>
    intro _ _
    exact List.chain'_nil
  | cons a l ih =>
    intro hch hmem
    rcases l with _ | ⟨b2, l2⟩
    · exact List.chain'_singleton a
    · rw [List.chain'_cons] at hch ⊢
      obtain ⟨hab, hrest⟩ := hch
      refine ⟨?_, ih hrest ?_⟩
      · have ha : a.1 < a.2.2 := hmem a (List.mem_cons_self a _)
        omega
      · intro t ht
        exact hmem t (List.mem_cons_of_mem a ht)

/-! ### Claim theorems -/

/-- C1 (counterexample): the Scan Step does *not* record `(state, i+1)`
after the transition on the byte at index `i`.  On the example DFA and
input "ab", `dfa_search_next` returns the correct one-byte match
`(0, 1)` while the algorithm as claimed would return `(0, 2)`: the two
differ, refuting the claim at a concrete input. -/

theorem C1_counterexample :
    dfa_search_next exDfa [97, 98] = some (0, 1) ∧
    dfa_search_next_claimed exDfa [97, 98] = some (0, 2) ∧
    dfa_search_next exDfa [97, 98] ≠ dfa_search_next_claimed exDfa [97, 98] := by
  refine ⟨by decide, by decide, by decide⟩

/-- C1 (amended): `dfa_search_next` follows the claimed algorithm with
the single amendment that the accepting state entered on the transition
over the byte at index `i` records position `i`, not `i + 1` (the dense
DFA delays match signals by one byte); the end-of-input transition still
records the full length, a dead state still stops the scan, and a zero
recorded length is still returned as no-match. -/

theorem C1_scan_algorithm (d : DFA) (input : List Nat) :
    dfa_search_next d input = dfa_search_next_amended d input := by
  unfold dfa_search_next dfa_search_next_amended
  rw [show dfaSearchLoop d input d.start 0 (d.start, 0) =
    dfaSearchIdxAmended d input d.start 0 (d.start, 0) from
      dfaSearchLoop_eq_idxAmended d input input d.start 0 (d.start, 0) rfl
        (Nat.zero_le _)]

/-- C1 witness: the amended algorithm agrees with the Scan Step on a
concrete DFA and input. -/

theorem C1_witness :
    dfa_search_next exDfa [97, 98] = dfa_search_next_amended exDfa [97, 98] :=
  C1_scan_algorithm exDfa [97, 98]

/-- C2: relative to the DFA contract `Models` over the compiled pattern
list (token patterns in declaration order, then skip patterns), the Scan
Step returns no-match exactly when no pattern matches a non-empty
prefix; otherwise it returns the longest matching prefix length together
with the lowest-indexed pattern matching that prefix (declaration-order
tie-break); and a skip pattern is returned only when no token pattern
matches the winning prefix. -/

theorem C2_longest_match (d : DFA) (toks skips : List (List Nat → Bool))
    (hM : Models d (compiledPatterns toks skips)) (input : List Nat) :
    (dfa_search_next d input = none →
      ∀ l, 1 ≤ l → l ≤ input.length →
        firstMatchIdx (compiledPatterns toks skips) (input.take l) = none) ∧
    (∀ p len, dfa_search_next d input = some (p, len) →
      1 ≤ len ∧ len ≤ input.length ∧
      firstMatchIdx (compiledPatterns toks skips) (input.take len) = some p ∧
      (∀ l, len < l → l ≤ input.length →
        firstMatchIdx (compiledPatterns toks skips) (input.take l) = none) ∧
      (toks.length ≤ p →
        ∀ q (hq : q < toks.length), toks.get ⟨q, hq⟩ (input.take len) = false)) := by
  have hm : dfaSearchLoop d input d.start 0 (d.start, 0) =
      ((dfaSearchLoop d input d.start 0 (d.start, 0)).1,
        (dfaSearchLoop d input d.start 0 (d.start, 0)).2) := rfl
  have hloop := dfaSearchLoop_longest hM input input [] (d.start, 0) rfl
    (Or.inl ⟨rfl, by intro l h1 h2; simp at h2⟩)
    (dfaSearchLoop d input d.start 0 (d.start, 0)).1
    (dfaSearchLoop d input d.start 0 (d.start, 0)).2
    hm.symm
  obtain ⟨hz, hpos⟩ := hloop
  constructor
  · intro hnone l hl1 hl2
    unfold dfa_search_next at hnone
    dsimp only at hnone
    split at hnone
    · exact absurd hnone (by simp)
    · rename_i hne
      have h0 : (dfaSearchLoop d input d.start 0 (d.start, 0)).2 = 0 := by
        by_contra hcc
        exact hne hcc
      exact hz h0 l hl1 hl2
  · intro p len hsome
    unfold dfa_search_next at hsome
    dsimp only at hsome
    split at hsome
    · rename_i hne
      simp only [Option.some.injEq, Prod.mk.injEq] at hsome
      obtain ⟨hp, hlen⟩ := hsome
      have h1 : 1 ≤ (dfaSearchLoop d input d.start 0 (d.start, 0)).2 := by omega
      obtain ⟨hle, hfm, hnone⟩ := hpos h1
      subst hlen
      refine ⟨h1, hle, ?_, ?_, ?_⟩
      · rw [hfm, hp]
      · intro l hll hlu
        exact hnone l hll hlu
      · intro hskip q hq
        have hfmp : firstMatchIdx (compiledPatterns toks skips)
            (input.take (dfaSearchLoop d input d.start 0 (d.start, 0)).2) = some p := by
          rw [hfm, hp]
        rcases firstMatchIdx_spec _ _ _ hfmp with ⟨hplt, hmatch, hleast⟩
        have hqp : q < p := by omega
        have hfalse := hleast q hqp
        have hgeteq : (compiledPatterns toks skips).get
            ⟨q, Nat.lt_trans hqp hplt⟩ = toks.get ⟨q, hq⟩ := by
          show (toks ++ skips).get _ = _
          exact List.get_append q hq
        rw [hgeteq] at hfalse
        exact hfalse
    · exact absurd hsome (by simp)

/-- C2 witness: on the example declaration (`token "a"`, `skip " "`)
and input "ab" the Scan Step returns pattern 0 with length 1, which is
the lowest-indexed pattern matching the longest matching prefix. -/

theorem C2_witness :
    1 ≤ 1 ∧ 1 ≤ ([97, 98] : List Nat).length ∧
    firstMatchIdx (compiledPatterns [patA] [patSpace])
      (([97, 98] : List Nat).take 1) = some 0 ∧
    (∀ l, 1 < l → l ≤ ([97, 98] : List Nat).length →
      firstMatchIdx (compiledPatterns [patA] [patSpace])
        (([97, 98] : List Nat).take l) = none) ∧
    (([patA] : List (List Nat → Bool)).length ≤ 0 →
      ∀ q (hq : q < ([patA] : List (List Nat → Bool)).length),
        ([patA] : List (List Nat → Bool)).get ⟨q, hq⟩
          (([97, 98] : List Nat).take 1) = false) :=
  (C2_longest_match exDfa [patA] [patSpace] exDfa_models [97, 98]).2 0 1 (by decide)

/-- C3 (counterexample): an erroring call to `next()` can leave the
`consumed` cursor *changed*: on the example lexer (skip pattern `" "`)
and input " b", the single call skips the space (advancing `consumed`
from 0 to 1) and then yields the lexical error at offset 1 with
`consumed = 1 ≠ 0`. -/

theorem C3_counterexample :
    (nextLoop exLexer [32, 98] 0).1 = some (StepRes.err 1) ∧
    (nextLoop exLexer [32, 98] 0).2.1 = 1 ∧ (1 : Nat) ≠ 0 := by
  rw [nextLoop_ex_space]
  exact ⟨rfl, rfl, by decide⟩

/-- C3 (amended): the iterator yields exactly one kind of scan-time
error, carrying a byte offset; an error is yielded exactly on a Scan
Step no-match (offset = the cursor at the failing scan) or a
continuation-hook failure (offset = the failing token's start), and the
erroring call leaves `consumed` equal to the reported offset — which can
exceed the pre-call cursor when skip patterns consumed bytes earlier in
the same call. -/

theorem C3_error_offsets (L : Lexer) (input : List Nat) (c : Nat) :
    (∀ o, (nextLoop L input c).1 = some (StepRes.err o) →
      (nextLoop L input c).2.1 = o ∧ c ≤ o ∧ o < input.length ∧
      (dfa_search_next L.dfa (input.drop o) = none ∨
        ∃ pat len v f,
          dfa_search_next L.dfa (input.drop o) = some (pat, len) ∧
          L.variants.get? pat = some v ∧ v.hook = some f ∧
          f ((input.drop o).take len) ((input.drop o).drop len) = none)) ∧
    (∀ b bs, input.drop c = b :: bs →
      dfa_search_next L.dfa (input.drop c) = none →
      nextLoop L input c = (some (StepRes.err c), c, [])) ∧
    (∀ b bs pat len v f, input.drop c = b :: bs →
      dfa_search_next L.dfa (input.drop c) = some (pat, len) →
      L.variants.get? pat = some v → v.hook = some f →
      f ((input.drop c).take len) ((input.drop c).drop len) = none →
      nextLoop L input c = (some (StepRes.err c), c, [])) := by
  obtain ⟨n1, n2, n3, n4, n5, n6⟩ := nextLoop_spec L input c
  refine ⟨?_, ?_, ?_⟩
  · intro o ho
    obtain ⟨hc2, holt, hdisj⟩ := n4 o ho
    exact ⟨hc2, le_of_le_of_eq n1 hc2, holt, hdisj⟩
  · intro b bs h1 h2
    exact nextLoop_eq_nomatch L input c b bs h1 h2
  · intro b bs pat len v f h1 h2 h3 h4 h5
    exact nextLoop_eq_hookfail L input c b bs pat len v f h1 h2 h3 h4 h5

/-- C3 witness: a Scan Step no-match on input " b" at cursor 1 yields
the lexical error at offset 1 and leaves the cursor there. -/

theorem C3_witness : nextLoop exLexer [32, 98] 1 = (some (StepRes.err 1), 1, []) :=
  (C3_error_offsets exLexer [32, 98] 1).2.1 98 [] rfl (by decide)

/-- C4: when the DFA matches `len` bytes at `start` and the variant has
a continuation hook, the hook is applied to exactly the matched slice
`input[start..start+len]` and the tail `input[start+len..]`; on success
with `extra` bytes the emitted token spans `start..start+len+extra` and
a slice-carrying variant receives the full extended slice. -/

theorem C4_hook_extension (L : Lexer) (input : List Nat) (start b : Nat) (bs : List Nat)
    (pat len : Nat) (v : Variant) (f : List Nat → List Nat → Option Nat) (extra : Nat)
    (h1 : input.drop start = b :: bs)
    (h2 : dfa_search_next L.dfa (input.drop start) = some (pat, len))
    (h3 : L.variants.get? pat = some v)
    (h4 : v.hook = some f)
    (h5 : f (slice input start (start + len)) (input.drop (start + len)) = some extra) :
    nextLoop L input start =
      (some (StepRes.tok start
        (mkToken v pat (slice input start (start + len + extra)))
        (start + len + extra)), start + len + extra, []) := by
  have hslice : (input.drop start).take len = slice input start (start + len) := by
    rw [List.take_drop]
    rfl
  have htail : (input.drop start).drop len = input.drop (start + len) :=
    List.drop_drop len start input
  have h5b : f ((input.drop start).take len) ((input.drop start).drop len) =
      some extra := by
    rw [hslice, htail]
    exact h5
  have heq := nextLoop_eq_hookok L input start b bs pat len v f extra h1 h2 h3 h4 h5b
  have hslice2 : (input.drop start).take (len + extra) =
      slice input start (start + len + extra) := by
    rw [List.take_drop, Nat.add_assoc]
    rfl
  have hadd : start + (len + extra) = start + len + extra := (Nat.add_assoc start len extra).symm
  rw [heq, hslice2, hadd]

/-- C4 witness: on the hook lexer and input "ab", the DFA matches "a"
and the hook consumes the whole tail, so the emitted token spans both
bytes and carries the extended slice. -/

theorem C4_witness :
    nextLoop exLexerHook [97, 98] 0 =
      (some (StepRes.tok 0 ⟨0, some [97, 98]⟩ 2), 2, []) := by
  have := C4_hook_extension exLexerHook [97, 98] 0 97 [98] 0 1 ⟨some exHook, true⟩
    exHook 1 rfl (by decide) rfl rfl (by decide)
  exact this

/-- C5: the Scan Step never returns a zero-length match; the cursor
never decreases across a call to `next()`; a call that emits a token
strictly advances the cursor; every span skipped inside a call is
non-empty (strict advance per skip); and the cursor is monotone over
successive calls. -/

theorem C5_strict_progress (L : Lexer) (input : List Nat) (c : Nat) :
    (∀ (d : DFA) (w : List Nat) (p l : Nat), dfa_search_next d w = some (p, l) → 1 ≤ l) ∧
    c ≤ (nextLoop L input c).2.1 ∧
    (∀ s t e, (nextLoop L input c).1 = some (StepRes.tok s t e) →
      c < (nextLoop L input c).2.1) ∧
    (∀ sp ∈ (nextLoop L input c).2.2, sp.1 < sp.2) ∧
    (∀ k, consumedAfter L input c k ≤ consumedAfter L input c (k + 1)) := by
  obtain ⟨n1, n2, n3, n4, n5, n6⟩ := nextLoop_spec L input c
  refine ⟨?_, n1, ?_, ?_, ?_⟩
  · intro d w p l h
    exact dfa_search_next_len_pos h
  · intro s t e hst
    obtain ⟨he, hcs, hse, _⟩ := n5 s t e hst
    omega
  · intro sp hsp
    exact SpanChain_mem_lt _ _ _ n2 sp (List.mem_append_left _ hsp)
  · intro k
    exact (nextLoop_spec L input (consumedAfter L input c k)).1

/-- C5 witness: on input "a" the call emits a token and advances the
cursor strictly; and the Scan Step returned length 1 ≥ 1 there. -/

theorem C5_witness :
    0 < (nextLoop exLexer [97] 0).2.1 ∧ (1 : Nat) ≥ 1 :=
  ⟨(C5_strict_progress exLexer [97] 0).2.2.1 0 ⟨0, some [97]⟩ 1
      (by rw [nextLoop_ex_a]),
    (C5_strict_progress exLexer [97] 0).1 exDfa [97] 0 1 (by decide)⟩

/-- C6: with well-behaved hooks, over any number of calls the emitted
tokens are chained `prev.end ≤ next.start`, each token satisfies
`start < end ≤ len(input)`, and starts are strictly increasing. -/

theorem C6_token_ordering (L : Lexer) (input : List Nat)
    (hb : HooksBounded L) (k : Nat) :
    List.Chain' (fun a b => a.2.2 ≤ b.1) (emitted (stepResults L input 0 k)) ∧
    (∀ t ∈ emitted (stepResults L input 0 k), t.1 < t.2.2 ∧ t.2.2 ≤ input.length) ∧
    List.Chain' (fun a b => a.1 < b.1) (emitted (stepResults L input 0 k)) := by
  obtain ⟨i1, i2, i3, i4, i5⟩ := steps_spec L input 0 k
  refine ⟨i4, ?_, ?_⟩
  · intro t ht
    obtain ⟨h1, h2, h3, h4⟩ := i3 t ht
    exact ⟨h2, le_trans h3 (i5 hb (Nat.zero_le _))⟩
  · exact chain_ends_starts _ i4 (fun t ht => (i3 t ht).2.1)

/-- C6 witness: instantiated on the example lexer (whose variants have
no hooks) and input "a" over two calls. -/

theorem C6_witness :
    List.Chain' (fun a b => a.2.2 ≤ b.1) (emitted (stepResults exLexer [97] 0 2)) ∧
    (∀ t ∈ emitted (stepResults exLexer [97] 0 2),
      t.1 < t.2.2 ∧ t.2.2 ≤ ([97] : List Nat).length) ∧
    List.Chain' (fun a b => a.1 < b.1) (emitted (stepResults exLexer [97] 0 2)) :=
  C6_token_ordering exLexer [97] exLexer_hooks_bounded 2

/-- C7: over any number of calls, concatenating the slices of all
skipped spans and emitted tokens, in order, reproduces the input from
offset 0 up to the final cursor; and every emitted token's variant index
is a token pattern (skip matches never appear in the output). -/

theorem C7_coverage (L : Lexer) (input : List Nat) (k : Nat) :
    ((allSpans (stepResults L input 0 k)).map (fun p => slice input p.1 p.2)).flatten =
      input.take (consumedAfter L input 0 k) ∧
    (∀ t ∈ emitted (stepResults L input 0 k), t.2.1.idx < L.variants.length) := by
  obtain ⟨i1, i2, i3, i4, i5⟩ := steps_spec L input 0 k
  constructor
  · rw [SpanChain_slice input _ 0 _ i2]
    unfold slice
    rw [List.drop_zero]
  · exact fun t ht => (i3 t ht).2.2.2

/-- C7 witness: instantiated on the example lexer and input "a". -/

theorem C7_witness :
    ((allSpans (stepResults exLexer [97] 0 1)).map
      (fun p => slice [97] p.1 p.2)).flatten =
      ([97] : List Nat).take (consumedAfter exLexer [97] 0 1) ∧
    (∀ t ∈ emitted (stepResults exLexer [97] 0 1),
      t.2.1.idx < exLexer.variants.length) :=
  C7_coverage exLexer [97] 1

/-- C8 (counterexample): the iterator is not finite on every input: on
the example lexer and the unlexable input "b" no call ever yields
end-of-sequence (every call yields the same error). -/

theorem C8_counterexample : ¬ ∃ k, resultAt exLexer [98] 0 k = none := by
  rintro ⟨k, hk⟩
  have hc : ∀ j, consumedAfter exLexer [98] 0 j = 0 := by
    intro j
    induction j with
    | zero => rfl
    | succ j ih =>
      show (nextLoop exLexer [98] (consumedAfter exLexer [98] 0 j)).2.1 = 0
      rw [ih, nextLoop_ex_b]
  unfold resultAt at hk
  rw [hc k, nextLoop_ex_b] at hk
  cases hk

/-- C8 (amended): the iterator yields end-of-sequence whenever
`consumed` has reached `len(input)` at the start of the call (so
`lex("")` ends immediately), and once end-of-sequence is yielded the
cursor is at the end of the input and every later call yields
end-of-sequence again; on inputs that scan without error the iterator
is therefore finite, but an erroring input yields errors forever. -/

theorem C8_end_of_sequence (L : Lexer) (input : List Nat) (c : Nat) :
    (input.length ≤ c → nextLoop L input c = (none, c, [])) ∧
    ((nextLoop L input c).1 = none →
      input.length ≤ (nextLoop L input c).2.1 ∧
      nextLoop L input ((nextLoop L input c).2.1) =
        (none, (nextLoop L input c).2.1, [])) := by
  obtain ⟨n1, n2, n3, n4, n5, n6⟩ := nextLoop_spec L input c
  constructor
  · intro hle
    exact nextLoop_eq_empty L input c (List.drop_eq_nil_of_le hle)
  · intro hnone
    have hlen := n3 hnone
    exact ⟨hlen, nextLoop_eq_empty L input _ (List.drop_eq_nil_of_le hlen)⟩

/-- C8 witness: `lex("")` yields end-of-sequence immediately. -/

theorem C8_witness : nextLoop exLexer [] 0 = (none, 0, []) :=
  (C8_end_of_sequence exLexer [] 0).1 (by decide)

/-- C9: lexing is deterministic and restartable: two iterators with the
same input and cursor produce identical step sequences, and resetting
an iterator's cursor to 0 reproduces the sequence of a fresh
`lex(input)`. -/

theorem C9_deterministic_restart (L : Lexer) (it1 it2 : TokenIterator)
    (h : it1.input = it2.input) (hc : it1.consumed = it2.consumed) :
    (∀ k, stepResults L it1.input it1.consumed k =
        stepResults L it2.input it2.consumed k ∧
      resultAt L it1.input it1.consumed k = resultAt L it2.input it2.consumed k) ∧
    (∀ k, stepResults L (reset it1).input (reset it1).consumed k =
        stepResults L (lex it1.input).input (lex it1.input).consumed k ∧
      resultAt L (reset it1).input (reset it1).consumed k =
        resultAt L (lex it1.input).input (lex it1.input).consumed k) := by
  constructor
  · intro k
    rw [h, hc]
    exact ⟨rfl, rfl⟩
  · intro k
    exact ⟨rfl, rfl⟩

/-- C9 witness: instantiated on two equal iterators over "a". -/

theorem C9_witness :
    stepResults exLexer [97] 0 2 = stepResults exLexer [97] 0 2 ∧
    resultAt exLexer [97] 0 2 = resultAt exLexer [97] 0 2 :=
  (C9_deterministic_restart exLexer ⟨[97], 0⟩ ⟨[97], 0⟩ rfl rfl).1 2

/-- C10: after a Scan Step no-match at the cursor, every call to
`next()` (the first and all subsequent ones) yields the identical
lexical error at that offset and leaves the cursor unchanged:
the implemented policy is error-then-retry, never error-then-end. -/

theorem C10_error_then_retry (L : Lexer) (input : List Nat) (c : Nat)
    (h1 : c < input.length)
    (h2 : dfa_search_next L.dfa (input.drop c) = none) :
    ∀ k, consumedAfter L input c k = c ∧
      resultAt L input c k = some (StepRes.err c) := by
  have hne : input.drop c ≠ [] := by
    intro hnil
    have := List.drop_eq_nil_iff.mp hnil
    omega
  rcases hdrop : input.drop c with _ | ⟨b, bs⟩
  · exact absurd hdrop hne
  · have hnl := nextLoop_eq_nomatch L input c b bs hdrop h2
    intro k
    induction k with
    | zero =>
      refine ⟨rfl, ?_⟩
      show (nextLoop L input c).1 = some (StepRes.err c)
      rw [hnl]
    | succ k ih =>
      obtain ⟨ihc, ihr⟩ := ih
      have hcs : consumedAfter L input c (k + 1) = c := by
        show (nextLoop L input (consumedAfter L input c k)).2.1 = c
        rw [ihc, hnl]
      refine ⟨hcs, ?_⟩
      show (nextLoop L input (consumedAfter L input c (k + 1))).1 = _
      rw [hcs, hnl]

/-- C10 witness: on the unlexable input "b" the fourth call still
yields the error at offset 0 with the cursor unchanged. -/

theorem C10_witness : consumedAfter exLexer [98] 0 3 = 0 ∧
    resultAt exLexer [98] 0 3 = some (StepRes.err 0) :=
  C10_error_then_retry exLexer [98] 0 (by decide) (by decide) 3

end LexiMatic
